import Mathlib

/-!
Verification of the ufunc sequence-combinator library.

Lazy pull-based sequences (Go `iter.Seq[E]`) are modelled as finite Lean
lists: every claim quantifies over finite sources, and pulling from a pull
handle corresponds to taking the head of the remaining list.  A combinator
that consumes its sources round by round becomes a recursion on the list of
remaining suffixes.  Numeric `RangeX` is modelled over the exact rationals.
`panic` is modelled as `Option.none` on the function result.
-/

namespace Ufunc

variable {E A T : Type}

/-- Total number of elements across all sources. -/
def totalLen (ls : List (List E)) : Nat :=
  (ls.map List.length).sum

/-- Length of the longest source (0 when there are none). -/
def maxLen (ls : List (List E)) : Nat :=
  ls.foldr (fun l m => max l.length m) 0

/-- Length of the shortest source (0 when there are none). -/
def minLen : List (List E) → Nat
  | [] => 0
  | [a] => a.length
  | a :: rest => min a.length (minLen rest)

theorem totalLen_nil : totalLen ([] : List (List E)) = 0 := rfl

theorem totalLen_cons (a : List E) (ls : List (List E)) :
    totalLen (a :: ls) = a.length + totalLen ls := by
  simp [totalLen]

theorem maxLen_nil : maxLen ([] : List (List E)) = 0 := rfl

theorem maxLen_cons (a : List E) (ls : List (List E)) :
    maxLen (a :: ls) = max a.length (maxLen ls) := rfl

theorem totalLen_tails_le (ls : List (List E)) :
    totalLen (ls.map List.tail) ≤ totalLen ls := by
  induction ls with
  | nil => simp [totalLen]
  | cons a rest ih =>
    simp only [List.map_cons, totalLen_cons]
    have h1 : a.tail.length ≤ a.length := by
      cases a <;> simp
    omega

theorem totalLen_tails_lt (ls : List (List E))
    (h : ¬ ls.all List.isEmpty) :
    totalLen (ls.map List.tail) < totalLen ls := by
  induction ls with
  | nil => simp at h
  | cons a rest ih =>
    simp only [List.all_cons, Bool.and_eq_true, not_and_or] at h
    simp only [List.map_cons, totalLen_cons]
    rcases h with h | h
    · have ha : a ≠ [] := by
        cases a <;> simp_all
      have h1 : a.tail.length < a.length := by
        cases a with
        | nil => exact absurd rfl ha
        | cons x xs => simp
      have h2 := totalLen_tails_le rest
      omega
    · have h1 : a.tail.length ≤ a.length := by cases a <;> simp
      have h2 := ih h
      omega

/-- The `Merge` combinator from the source: while any source is still
marked live, sweep the source list in order, pulling and yielding one
element from each source that is not yet exhausted; a source whose pull
fails is marked exhausted and skipped from then on.  One sweep yields the
heads of the non-empty suffixes and replaces every suffix by its tail. -/
def Merge (ls : List (List E)) : List E :=
  if h : ls.all List.isEmpty then []
  else ls.filterMap List.head? ++ Merge (ls.map List.tail)
termination_by totalLen ls
decreasing_by exact totalLen_tails_lt ls h

/-- The row-building inner loop of `Zip` from the source: walk the pull
handles in order; if every pull succeeds the completed row is returned,
and the first failing pull abandons the row (`none`). -/
def allHeads : List (List E) → Option (List E)
  | [] => some []
  | [] :: _ => none
  | (a :: _) :: rest => (allHeads rest).map (fun r => a :: r)

/-- The `Zip` combinator from the source.  The Go implementation is an
unbounded demand-driven loop (`for { ... }`): each round builds a row from
one pull per source and yields it, returning only when some pull fails.
`fuel` bounds the number of rounds the consumer drives; the Go loop itself
has no such bound, so a run in which no pull ever fails never returns. -/
def Zip : Nat → List (List E) → List (List E)
  | 0, _ => []
  | fuel + 1, ls =>
    match allHeads ls with
    | none => []
    | some row => row :: Zip fuel (ls.map List.tail)

/-- The `ZipLongest` combinator from the source: each round pulls once
from every source, substituting the zero value `z` for an exhausted
source and counting the successful pulls; if no pull succeeded the loop
returns without yielding, otherwise the padded row is yielded. -/
def ZipLongest (z : E) (ls : List (List E)) : List (List E) :=
  if h : ls.all List.isEmpty then []
  else (ls.map (fun l => l.headD z)) :: ZipLongest z (ls.map List.tail)
termination_by totalLen ls
decreasing_by exact totalLen_tails_lt ls h

/-- The `Reduce` function from the source: loop over the elements in
order, replacing the accumulator by `reduce element accumulator`. -/
def Reduce : List E → (E → A → A) → A → A
  | [], _, accumulator => accumulator
  | x :: xs, reduce, accumulator => Reduce xs reduce (reduce x accumulator)

/-- The ascending loop of `RangeX` from the source:
while `start < e`, yield `start` and add `step`. -/
def rangeUp (e step : ℚ) (h : 0 < step) (start : ℚ) : List ℚ :=
  if start < e then start :: rangeUp e step h (start + step) else []
termination_by (⌈(e - start) / step⌉).toNat
decreasing_by
  have hpos : (0 : ℚ) < (e - start) / step := div_pos (by linarith) h
  have h1 : (1 : ℤ) ≤ ⌈(e - start) / step⌉ := Int.ceil_pos.mpr hpos
  have h2 : (e - (start + step)) / step = (e - start) / step - 1 := by
    field_simp
    ring
  have h3 : ⌈(e - (start + step)) / step⌉ = ⌈(e - start) / step⌉ - 1 := by
    rw [h2, Int.ceil_sub_one]
  omega

/-- The descending loop of `RangeX` from the source:
while `start > e`, yield `start` and subtract `step`. -/
def rangeDown (e step : ℚ) (h : 0 < step) (start : ℚ) : List ℚ :=
  if start > e then start :: rangeDown e step h (start - step) else []
termination_by (⌈(start - e) / step⌉).toNat
decreasing_by
  have hpos : (0 : ℚ) < (start - e) / step := div_pos (by linarith) h
  have h1 : (1 : ℤ) ≤ ⌈(start - e) / step⌉ := Int.ceil_pos.mpr hpos
  have h2 : (start - step - e) / step = (start - e) / step - 1 := by
    field_simp
    ring
  have h3 : ⌈(start - step - e) / step⌉ = ⌈(start - e) / step⌉ - 1 := by
    rw [h2, Int.ceil_sub_one]
  omega

/-- The `RangeX` function from the source, over exact rationals: a
non-positive step panics (modelled as `none`); otherwise the ascending
loop runs when `start ≤ e` and the descending loop when `start > e`. -/
def RangeX (start e step : ℚ) : Option (List ℚ) :=
  if h : step ≤ 0 then none
  else some (if start ≤ e then rangeUp e step (not_le.mp h) start
             else rangeDown e step (not_le.mp h) start)

/-- The loop body of `Spans` from the source: starting at index 0 and
advancing by `stride`, yield the subslice `slice[i:min(i+stride, len)]`
paired with whether it is full-length.  Recursing on `drop stride` is the
advance of the index. -/
def spansGo (stride : Nat) (h : 0 < stride) : List T → List (List T × Bool)
  | [] => []
  | a :: rest =>
    ((a :: rest).take stride, ((a :: rest).take stride).length == stride) ::
      spansGo stride h ((a :: rest).drop stride)
termination_by l => l.length
decreasing_by
  simp only [List.length_drop, List.length_cons]
  omega

/-- The `Spans` function from the source: a non-positive stride panics
(modelled as `none`); otherwise the windowing loop runs. -/
def Spans (slice : List T) (stride : ℤ) : Option (List (List T × Bool)) :=
  if h : stride ≤ 0 then none
  else some (spansGo stride.toNat (by omega) slice)

/-! ### Lemmas about the length measures -/

theorem totalLen_eq_zero_of_all_empty (ls : List (List E))
    (h : ls.all List.isEmpty) : totalLen ls = 0 := by
  induction ls with
  | nil => rfl
  | cons a rest ih =>
    simp only [List.all_cons, Bool.and_eq_true] at h
    have ha : a = [] := by
      cases a <;> simp_all
    simp [totalLen_cons, ha, ih h.2]

theorem maxLen_eq_zero_iff (ls : List (List E)) :
    maxLen ls = 0 ↔ ls.all List.isEmpty := by
  induction ls with
  | nil => simp [maxLen_nil]
  | cons a rest ih =>
    simp only [maxLen_cons, List.all_cons, Bool.and_eq_true]
    constructor
    · intro h
      have h1 : a.length = 0 := by omega
      have h2 : maxLen rest = 0 := by omega
      exact ⟨by cases a <;> simp_all, ih.mp h2⟩
    · rintro ⟨h1, h2⟩
      have ha : a.length = 0 := by cases a <;> simp_all
      have hr : maxLen rest = 0 := ih.mpr h2
      omega

theorem maxLen_tails (ls : List (List E)) :
    maxLen (ls.map List.tail) = maxLen ls - 1 := by
  induction ls with
  | nil => rfl
  | cons a rest ih =>
    simp only [List.map_cons, maxLen_cons, ih, List.length_tail]
    omega

theorem length_filterMap_head?_add (ls : List (List E)) :
    (ls.filterMap List.head?).length + totalLen (ls.map List.tail)
      = totalLen ls := by
  induction ls with
  | nil => rfl
  | cons a rest ih =>
    cases a with
    | nil =>
      simpa [List.filterMap_cons, totalLen_cons] using ih
    | cons x xs =>
      simp only [List.filterMap_cons, List.map_cons, totalLen_cons,
        List.head?, List.length_cons, List.tail_cons] at ih ⊢
      omega

/-! ### Merge: total count and round-robin order -/

theorem merge_length (ls : List (List E)) :
    (Merge ls).length = totalLen ls := by
  by_cases h : ls.all List.isEmpty
  · rw [Merge]
    simp [h, totalLen_eq_zero_of_all_empty ls h]
  · rw [Merge, dif_neg h, List.length_append,
      merge_length (ls.map List.tail)]
    exact length_filterMap_head?_add ls
termination_by totalLen ls
decreasing_by exact totalLen_tails_lt ls h

theorem merge_round_robin (ls : List (List E)) :
    Merge ls = (List.range (maxLen ls)).flatMap
      (fun j => ls.filterMap (fun l => l[j]?)) := by
  by_cases h : ls.all List.isEmpty
  · rw [Merge]
    simp [h, (maxLen_eq_zero_iff ls).mpr h]
  · rw [Merge, dif_neg h, merge_round_robin (ls.map List.tail)]
    obtain ⟨n, hn⟩ : ∃ n, maxLen ls = n + 1 := by
      have h0 : maxLen ls ≠ 0 := fun hz => h ((maxLen_eq_zero_iff ls).mp hz)
      exact ⟨maxLen ls - 1, by omega⟩
    have ht : maxLen (ls.map List.tail) = n := by
      rw [maxLen_tails, hn]
      omega
    rw [ht, hn, List.range_succ_eq_map, List.flatMap_cons, List.flatMap_map]
    congr 1
    · apply List.filterMap_congr
      intro l _
      exact List.head?_eq_getElem? l
    · have hstep : (fun j => (ls.map List.tail).filterMap (fun l => l[j]?)) =
          fun a => ls.filterMap (fun l => l[Nat.succ a]?) := by
        funext j
        rw [List.filterMap_map]
        apply List.filterMap_congr
        intro l _
        simp [List.getElem?_tail]
      rw [hstep]
termination_by totalLen ls
decreasing_by exact totalLen_tails_lt ls h

/-- Claim C2: `Merge` over finite sources yields exactly the sum of the
source lengths, in round-robin order: sweep `j` (for `j` below the longest
source length) yields, in source order, the `j`-th element of every source
that still has one, so `Merge [a, b, c]` begins with element 0 of `a`,
element 0 of `b`, element 0 of `c`, element 1 of `a`, and so on. -/
theorem merge_spec (ls : List (List E)) :
    (Merge ls).length = totalLen ls ∧
    Merge ls = (List.range (maxLen ls)).flatMap
      (fun j => ls.filterMap (fun l => l[j]?)) :=
  ⟨merge_length ls, merge_round_robin ls⟩

/-- Claim C10: `Merge` with zero source sequences produces an empty
sequence: the loop finds no live source and terminates immediately. -/
theorem merge_nil : Merge ([] : List (List E)) = [] := by
  rw [Merge]
  simp

/-! ### ZipLongest: row count and zero padding -/

theorem headD_eq_getD (l : List E) (z : E) : l.headD z = l.getD 0 z := by
  cases l <;> rfl

theorem tail_getD (l : List E) (i : Nat) (z : E) :
    l.tail.getD i z = l.getD (i + 1) z := by
  cases l <;> rfl

theorem zipLongest_eq (z : E) (ls : List (List E)) :
    ZipLongest z ls = (List.range (maxLen ls)).map
      (fun i => ls.map (fun l => l.getD i z)) := by
  by_cases h : ls.all List.isEmpty
  · rw [ZipLongest]
    simp [h, (maxLen_eq_zero_iff ls).mpr h]
  · rw [ZipLongest, dif_neg h, zipLongest_eq z (ls.map List.tail)]
    obtain ⟨n, hn⟩ : ∃ n, maxLen ls = n + 1 := by
      have h0 : maxLen ls ≠ 0 := fun hz => h ((maxLen_eq_zero_iff ls).mp hz)
      exact ⟨maxLen ls - 1, by omega⟩
    have ht : maxLen (ls.map List.tail) = n := by
      rw [maxLen_tails, hn]
      omega
    rw [ht, hn, List.range_succ_eq_map, List.map_cons, List.map_map]
    congr 1
    · apply List.map_congr_left
      intro l _
      exact headD_eq_getD l z
    · apply List.map_congr_left
      intro j _
      simp only [Function.comp_apply, List.map_map]
      apply List.map_congr_left
      intro l _
      simp [tail_getD]
termination_by totalLen ls
decreasing_by exact totalLen_tails_lt ls h

/-- Claim C4: for finite sources, `ZipLongest` produces exactly
`maxLen` rows (zero rows when there are no sources); row `i` holds, for
each source in source order, its `i`-th element when `i` is below that
source's length and the zero value `z` otherwise; the all-default round
after every source is exhausted is not yielded, which is exactly why the
row count is `maxLen` and not more. -/
theorem zipLongest_spec (z : E) (ls : List (List E)) :
    ZipLongest z ls = (List.range (maxLen ls)).map
      (fun i => ls.map (fun l => l.getD i z)) ∧
    (ZipLongest z ls).length = maxLen ls := by
  refine ⟨zipLongest_eq z ls, ?_⟩
  rw [zipLongest_eq z ls]
  simp

/-- Claim C9: `ZipLongest` with zero source sequences produces an empty
sequence: in the very first round no source contributes a real value
(`oks` stays 0), so the loop returns without yielding a row. -/
theorem zipLongest_nil (z : E) : ZipLongest z [] = [] := by
  rw [ZipLongest]
  simp

/-! ### Zip: row count, row contents, zero-source behaviour -/

theorem minLen_singleton (a : List E) : minLen [a] = a.length := rfl

theorem minLen_cons_cons (a b : List E) (t : List (List E)) :
    minLen (a :: b :: t) = min a.length (minLen (b :: t)) := rfl

theorem minLen_le (ls : List (List E)) (l : List E) (hl : l ∈ ls) :
    minLen ls ≤ l.length := by
  induction ls with
  | nil => simp at hl
  | cons a rest ih =>
    cases rest with
    | nil =>
      simp at hl
      subst hl
      exact le_of_eq (minLen_singleton l)
    | cons b t =>
      rw [minLen_cons_cons]
      rcases List.mem_cons.mp hl with h | h
      · subst h
        exact min_le_left _ _
      · exact le_trans (min_le_right _ _) (ih h)

theorem exists_nil_of_minLen_eq_zero (ls : List (List E)) (hne : ls ≠ [])
    (h : minLen ls = 0) : [] ∈ ls := by
  induction ls with
  | nil => exact absurd rfl hne
  | cons a rest ih =>
    cases rest with
    | nil =>
      rw [minLen_singleton] at h
      rw [List.length_eq_zero.mp h]
      exact List.mem_cons_self _ _
    | cons b t =>
      rw [minLen_cons_cons] at h
      rcases Nat.min_eq_zero_iff.mp h with h | h
      · rw [← List.length_eq_zero.mp h]
        exact List.mem_cons_self _ _
      · exact List.mem_cons_of_mem _ (ih (List.cons_ne_nil _ _) h)

theorem minLen_tails (ls : List (List E)) :
    minLen (ls.map List.tail) = minLen ls - 1 := by
  induction ls with
  | nil => rfl
  | cons a rest ih =>
    cases rest with
    | nil =>
      simp only [List.map_cons, List.map_nil, minLen_singleton,
        List.length_tail]
    | cons b t =>
      simp only [List.map_cons] at ih ⊢
      rw [minLen_cons_cons, minLen_cons_cons, ih, List.length_tail]
      omega

theorem allHeads_none_of_mem (ls : List (List E)) (hl : [] ∈ ls) :
    allHeads ls = none := by
  induction ls with
  | nil => simp at hl
  | cons a rest ih =>
    rcases List.mem_cons.mp hl with h | h
    · rw [← h]
      rfl
    · cases a with
      | nil => rfl
      | cons x xs => simp [allHeads, ih h]

theorem allHeads_some (ls : List (List E)) (h : ∀ l ∈ ls, l ≠ []) :
    allHeads ls = some (ls.filterMap List.head?) := by
  induction ls with
  | nil => rfl
  | cons a rest ih =>
    cases a with
    | nil => exact absurd rfl (h [] (List.mem_cons_self _ _))
    | cons x xs =>
      have hr := ih (fun l hl => h l (List.mem_cons_of_mem _ hl))
      simp [allHeads, hr, List.filterMap_cons, List.head?]

theorem zip_eq (fuel : Nat) (ls : List (List E)) (hne : ls ≠ [])
    (hfuel : minLen ls ≤ fuel) :
    Zip fuel ls = (List.range (minLen ls)).map
      (fun i => ls.filterMap (fun l => l[i]?)) := by
  induction fuel generalizing ls with
  | zero =>
    have h0 : minLen ls = 0 := Nat.le_zero.mp hfuel
    simp [Zip, h0]
  | succ fuel ih =>
    by_cases h0 : minLen ls = 0
    · have hl := exists_nil_of_minLen_eq_zero ls hne h0
      simp [Zip, allHeads_none_of_mem ls hl, h0]
    · have hall : ∀ l ∈ ls, l ≠ [] := by
        intro l hl hnil
        have hle := minLen_le ls l hl
        rw [hnil] at hle
        simp at hle
        exact h0 hle
      obtain ⟨m, hm⟩ : ∃ m, minLen ls = m + 1 := ⟨minLen ls - 1, by omega⟩
      have htne : ls.map List.tail ≠ [] := by
        cases ls with
        | nil => exact absurd rfl hne
        | cons a rest => simp
      have htm : minLen (ls.map List.tail) = m := by
        rw [minLen_tails ls, hm]
        omega
      have ihr := ih (ls.map List.tail) htne (by omega)
      simp only [Zip, allHeads_some ls hall]
      rw [ihr, htm, hm, List.range_succ_eq_map, List.map_cons, List.map_map]
      congr 1
      · apply List.filterMap_congr
        intro l _
        exact List.head?_eq_getElem? l
      · apply List.map_congr_left
        intro j _
        simp only [Function.comp_apply]
        rw [List.filterMap_map]
        apply List.filterMap_congr
        intro l _
        simp [List.getElem?_tail]

/-- Claim C5: for one or more finite sources and enough consumer demand,
`Zip` produces exactly `minLen` rows; row `i` is, in source order, the
`i`-th element of every source -- and every source really contributes to
each yielded row, since `i < minLen ls` is below every source's length;
the round in which some source is exhausted yields no (partial) row. -/
theorem zip_spec (fuel : Nat) (ls : List (List E)) (hne : ls ≠ [])
    (hfuel : minLen ls ≤ fuel) :
    Zip fuel ls = (List.range (minLen ls)).map
      (fun i => ls.filterMap (fun l => l[i]?)) ∧
    (Zip fuel ls).length = minLen ls ∧
    (∀ i < minLen ls, ∀ l ∈ ls, i < l.length) := by
  refine ⟨zip_eq fuel ls hne hfuel, ?_, ?_⟩
  · rw [zip_eq fuel ls hne hfuel]
    simp
  · intro i hi l hl
    exact lt_of_lt_of_le hi (minLen_le ls l hl)

/-- Claim C5 witness at the sources from the repository's own test:
`Zip(RangeX(0,11,3), RangeX(1,11,3), RangeX(2,11,3))`. -/
theorem zip_spec_witness :
    Zip 5 [[0, 3, 6, 9], [1, 4, 7, 10], [2, 5, 8]] =
      (List.range (minLen [[0, 3, 6, 9], [1, 4, 7, 10], [2, 5, 8]])).map
        (fun i => [[0, 3, 6, 9], [1, 4, 7, 10], [2, 5, 8]].filterMap
          (fun l => l[i]?)) ∧
    (Zip 5 [[0, 3, 6, 9], [1, 4, 7, 10], [2, 5, 8]]).length =
      minLen [[0, 3, 6, 9], [1, 4, 7, 10], [2, 5, 8]] ∧
    (∀ i < minLen [[0, 3, 6, 9], [1, 4, 7, 10], [2, 5, 8]],
      ∀ l ∈ [[0, 3, 6, 9], [1, 4, 7, 10], [2, 5, 8]], i < l.length) :=
  zip_spec 5 [[0, 3, 6, 9], [1, 4, 7, 10], [2, 5, 8]]
    (by decide) (by decide)

/-- Claim C1 concerns `Zip` with zero sources.  In the source, the
row-building loop over zero pull handles never hits a failing pull, so
every round builds the empty row and yields it: the produced sequence is
an unbounded stream of empty rows, one per round of consumer demand
(`fuel`), and iteration never terminates of its own accord -- contradicting
the claimed empty sequence. -/
theorem zip_no_sources (fuel : Nat) :
    Zip fuel ([] : List (List E)) = List.replicate fuel [] := by
  induction fuel with
  | zero => rfl
  | succ fuel ih => simp [Zip, allHeads, ih, List.replicate]

/-! ### RangeX: length, first element, stepping, abort condition -/

theorem rangeUp_eq (e step : ℚ) (h : 0 < step) (start : ℚ) :
    rangeUp e step h start = (List.range (⌈(e - start) / step⌉).toNat).map
      (fun i : Nat => start + (i : ℚ) * step) := by
  rw [rangeUp]
  by_cases hlt : start < e
  · rw [if_pos hlt]
    have hpos : (0 : ℚ) < (e - start) / step := div_pos (by linarith) h
    have h1 : (1 : ℤ) ≤ ⌈(e - start) / step⌉ := Int.ceil_pos.mpr hpos
    have h2 : (e - (start + step)) / step = (e - start) / step - 1 := by
      field_simp
      ring
    have h3 : ⌈(e - (start + step)) / step⌉ = ⌈(e - start) / step⌉ - 1 := by
      rw [h2, Int.ceil_sub_one]
    rw [rangeUp_eq e step h (start + step)]
    have hn : (⌈(e - start) / step⌉).toNat
        = (⌈(e - (start + step)) / step⌉).toNat + 1 := by omega
    rw [hn, List.range_succ_eq_map, List.map_cons, List.map_map]
    congr 1
    · push_cast
      ring
    · apply List.map_congr_left
      intro i _
      simp only [Function.comp_apply]
      push_cast
      ring
  · rw [if_neg hlt]
    have hle : (e - start) / step ≤ 0 :=
      div_nonpos_of_nonpos_of_nonneg (by linarith) (le_of_lt h)
    have hc : ⌈(e - start) / step⌉ ≤ 0 := Int.ceil_le.mpr (by push_cast; linarith)
    rw [Int.toNat_of_nonpos hc]
    rfl
termination_by (⌈(e - start) / step⌉).toNat
decreasing_by
  have hpos : (0 : ℚ) < (e - start) / step := div_pos (by linarith) h
  omega

theorem rangeDown_eq (e step : ℚ) (h : 0 < step) (start : ℚ) :
    rangeDown e step h start = (List.range (⌈(start - e) / step⌉).toNat).map
      (fun i : Nat => start - (i : ℚ) * step) := by
  rw [rangeDown]
  by_cases hlt : start > e
  · rw [if_pos hlt]
    have hpos : (0 : ℚ) < (start - e) / step := div_pos (by linarith) h
    have h1 : (1 : ℤ) ≤ ⌈(start - e) / step⌉ := Int.ceil_pos.mpr hpos
    have h2 : (start - step - e) / step = (start - e) / step - 1 := by
      field_simp
      ring
    have h3 : ⌈(start - step - e) / step⌉ = ⌈(start - e) / step⌉ - 1 := by
      rw [h2, Int.ceil_sub_one]
    rw [rangeDown_eq e step h (start - step)]
    have hn : (⌈(start - e) / step⌉).toNat
        = (⌈(start - step - e) / step⌉).toNat + 1 := by omega
    rw [hn, List.range_succ_eq_map, List.map_cons, List.map_map]
    congr 1
    · push_cast
      ring
    · apply List.map_congr_left
      intro i _
      simp only [Function.comp_apply]
      push_cast
      ring
  · rw [if_neg hlt]
    have hle : (start - e) / step ≤ 0 :=
      div_nonpos_of_nonpos_of_nonneg (by linarith) (le_of_lt h)
    have hc : ⌈(start - e) / step⌉ ≤ 0 := Int.ceil_le.mpr (by push_cast; linarith)
    rw [Int.toNat_of_nonpos hc]
    rfl
termination_by (⌈(start - e) / step⌉).toNat
decreasing_by
  have hpos : (0 : ℚ) < (start - e) / step := div_pos (by linarith) h
  omega

/-- Claim C3: for every start, end and positive step over the exact
rationals, `RangeX` produces a sequence of exactly
`⌈|end - start| / step⌉` elements, beginning at `start`, each successive
element differing from its predecessor by exactly `+step` when
`start ≤ end` and by exactly `-step` when `start > end`; when
`start = end` the sequence is empty. -/
theorem rangeX_spec (s e step : ℚ) (h : 0 < step) :
    ∃ l, RangeX s e step = some l ∧
      l.length = (⌈|e - s| / step⌉).toNat ∧
      (s = e → l = []) ∧
      (l ≠ [] → l.head? = some s) ∧
      (∀ i, i + 1 < l.length →
        l[i + 1]? = l[i]?.map (fun x => if s ≤ e then x + step else x - step)) := by
  rw [RangeX, dif_neg (not_le.mpr h)]
  by_cases hse : s ≤ e
  · rw [if_pos hse]
    set n : Nat := (⌈(e - s) / step⌉).toNat with hn
    refine ⟨_, rfl, ?_, ?_, ?_, ?_⟩
    · rw [rangeUp_eq, abs_of_nonneg (by linarith : (0:ℚ) ≤ e - s)]
      simp
    · intro hseq
      rw [rangeUp_eq, hseq]
      simp
    · intro hne
      rw [rangeUp_eq] at hne ⊢
      rw [List.head?_eq_getElem?]
      have hn0 : 0 < n := by
        by_contra h0
        have hz : n = 0 := by omega
        rw [← hn] at hne
        rw [hz] at hne
        simp at hne
      rw [← hn, List.getElem?_map, List.getElem?_range hn0]
      simp
    · intro i hi
      rw [rangeUp_eq] at hi ⊢
      rw [← hn] at hi ⊢
      simp only [List.length_map, List.length_range] at hi
      rw [List.getElem?_map, List.getElem?_map, List.getElem?_range hi,
        List.getElem?_range (by omega : i < n)]
      simp only [Option.map_some', Option.some.injEq, if_pos hse]
      push_cast
      ring
  · rw [if_neg hse]
    have hgt : e < s := not_le.mp hse
    set n : Nat := (⌈(s - e) / step⌉).toNat with hn
    refine ⟨_, rfl, ?_, ?_, ?_, ?_⟩
    · rw [rangeDown_eq, abs_of_neg (by linarith : e - s < 0)]
      simp only [List.length_map, List.length_range, neg_sub]
    · intro hseq
      exact absurd hseq (by linarith)
    · intro hne
      rw [rangeDown_eq] at hne ⊢
      rw [List.head?_eq_getElem?]
      have hn0 : 0 < n := by
        by_contra h0
        have hz : n = 0 := by omega
        rw [← hn] at hne
        rw [hz] at hne
        simp at hne
      rw [← hn, List.getElem?_map, List.getElem?_range hn0]
      simp
    · intro i hi
      rw [rangeDown_eq] at hi ⊢
      rw [← hn] at hi ⊢
      simp only [List.length_map, List.length_range] at hi
      rw [List.getElem?_map, List.getElem?_map, List.getElem?_range hi,
        List.getElem?_range (by omega : i < n)]
      simp only [Option.map_some', Option.some.injEq, if_neg hse]
      push_cast
      ring

/-- Claim C3 witness at `RangeX(10, 32, 3)`, a call from the repository's
own tests (8 elements: 10, 13, ..., 31). -/
theorem rangeX_spec_witness :
    ∃ l, RangeX 10 32 3 = some l ∧
      l.length = (⌈|(32 : ℚ) - 10| / 3⌉).toNat ∧
      ((10 : ℚ) = 32 → l = []) ∧
      (l ≠ [] → l.head? = some 10) ∧
      (∀ i, i + 1 < l.length →
        l[i + 1]? = l[i]?.map (fun x => if (10 : ℚ) ≤ 32 then x + 3 else x - 3)) :=
  rangeX_spec 10 32 3 (by decide)

/-! ### Spans: exact partition, window lengths, boolean flag -/

theorem spansGo_nil (stride : Nat) (h : 0 < stride) :
    spansGo stride h ([] : List T) = [] := by
  rw [spansGo]

theorem spansGo_flatten (stride : Nat) (h : 0 < stride) (l : List T) :
    ((spansGo stride h l).map Prod.fst).flatten = l := by
  cases l with
  | nil => rw [spansGo_nil]; rfl
  | cons a rest =>
    rw [spansGo]
    simp only [List.map_cons, List.flatten_cons]
    rw [spansGo_flatten stride h ((a :: rest).drop stride)]
    exact List.take_append_drop stride (a :: rest)
termination_by l.length
decreasing_by
  simp only [List.length_drop, List.length_cons]
  omega

theorem spansGo_dropLast (stride : Nat) (h : 0 < stride) (l : List T) :
    ∀ p ∈ (spansGo stride h l).dropLast, p.1.length = stride := by
  cases l with
  | nil =>
    intro p hp
    rw [spansGo] at hp
    simp at hp
  | cons a rest =>
    rw [spansGo]
    by_cases hd : (a :: rest).drop stride = []
    · rw [hd]
      intro p hp
      rw [spansGo] at hp
      simp at hp
    · have hne : spansGo stride h ((a :: rest).drop stride) ≠ [] := by
        cases hcase : (a :: rest).drop stride with
        | nil => exact absurd hcase hd
        | cons b t =>
          rw [spansGo]
          simp
      rw [List.dropLast_cons_of_ne_nil hne]
      intro p hp
      rcases List.mem_cons.mp hp with hp | hp
      · subst hp
        have hlen : stride < (a :: rest).length := by
          by_contra hge
          exact hd (List.drop_eq_nil_of_le (by omega))
        simp only [List.length_take]
        omega
      · exact spansGo_dropLast stride h ((a :: rest).drop stride) p hp
termination_by l.length
decreasing_by
  simp only [List.length_drop, List.length_cons]
  omega

theorem spansGo_snd (stride : Nat) (h : 0 < stride) (l : List T) :
    ∀ p ∈ spansGo stride h l, (p.2 = false ↔ p.1.length < stride) := by
  cases l with
  | nil =>
    intro p hp
    rw [spansGo] at hp
    simp at hp
  | cons a rest =>
    rw [spansGo]
    intro p hp
    rcases List.mem_cons.mp hp with hp | hp
    · subst hp
      simp only
      rw [beq_eq_false_iff_ne]
      have hle : (List.take stride (a :: rest)).length ≤ stride := by
        rw [List.length_take]
        omega
      constructor <;> omega
    · exact spansGo_snd stride h ((a :: rest).drop stride) p hp
termination_by l.length
decreasing_by
  simp only [List.length_drop, List.length_cons]
  omega

/-- Claim C7: for every sequence and every positive stride,
concatenating the sub-sequences yielded by `Spans` reproduces the input
exactly; every yielded sub-sequence except possibly the last has length
exactly `stride`; and the boolean paired with a sub-sequence is `false`
precisely when that sub-sequence is shorter than `stride`. -/
theorem spans_spec (sl : List T) (stride : ℤ) (h : 0 < stride) :
    ∃ res, Spans sl stride = some res ∧
      (res.map Prod.fst).flatten = sl ∧
      (∀ p ∈ res.dropLast, p.1.length = stride.toNat) ∧
      (∀ p ∈ res, (p.2 = false ↔ p.1.length < stride.toNat)) := by
  rw [Spans, dif_neg (not_le.mpr h)]
  exact ⟨_, rfl, spansGo_flatten _ _ sl, spansGo_dropLast _ _ sl,
    spansGo_snd _ _ sl⟩

/-- Claim C7 witness at `Spans([1..11], 4)`, the call from the
repository's own tests (windows `[1,2,3,4]`, `[5,6,7,8]`, `[9,10,11]`). -/
theorem spans_spec_witness :
    ∃ res, Spans [1, 2, 3, 4, 5, 6, 7, 8, 9, 10, 11] 4 = some res ∧
      (res.map Prod.fst).flatten = [1, 2, 3, 4, 5, 6, 7, 8, 9, 10, 11] ∧
      (∀ p ∈ res.dropLast, p.1.length = (4 : ℤ).toNat) ∧
      (∀ p ∈ res, (p.2 = false ↔ p.1.length < (4 : ℤ).toNat)) :=
  spans_spec [1, 2, 3, 4, 5, 6, 7, 8, 9, 10, 11] 4 (by decide)

/-! ### Abort conditions of RangeX and Spans -/

/-- Claim C6: `RangeX` aborts exactly when `step ≤ 0` and `Spans` aborts
exactly when `stride ≤ 0`; the abort is the result of the call itself,
produced before any element of the sequence, and for positive step and
stride the calls never abort. -/
theorem rangeX_spans_abort_iff (s e step : ℚ) (sl : List T) (stride : ℤ) :
    (RangeX s e step = none ↔ step ≤ 0) ∧
    (Spans sl stride = none ↔ stride ≤ 0) := by
  constructor
  · rw [RangeX]
    split_ifs with hc <;> simp [hc]
  · rw [Spans]
    split_ifs with hc <;> simp [hc]

/-! ### Reduce -/

/-- Claim C8: `Reduce` is the left-to-right fold that starts from the
initial accumulator and replaces it by `reduce element accumulator` for
each element in list order -- with the element as the first argument of
the combine function and the accumulator as the second. -/
theorem reduce_spec (l : List E) (f : E → A → A) (a : A) :
    Reduce l f a = l.foldl (fun acc x => f x acc) a := by
  induction l generalizing a with
  | nil => rfl
  | cons x xs ih => simp [Reduce, List.foldl_cons, ih]

end Ufunc
